import Mathlib

/-!
Verification of the JobRadar core (src/recruit/matcher.py and
src/recruit/scheduler.py) against its natural-language specification.

The embedding is shallow: Python strings become lists of characters,
Python floats become rationals, the mutable seen-sets become explicit
state threaded through the functions, and raised exceptions become
Option results.
-/

set_option maxRecDepth 100000

namespace JobRadar

/-- Python str.lower, modelled character-wise.  Lean's Char.toLower is the
ASCII case mapping and is the identity on Hangul syllables, which matches
Python str.lower on the alphabets this repository handles. -/
def lowerList (l : List Char) : List Char := l.map Char.toLower

/-- str.lower on a whole string. -/
def lowerStr (s : String) : String := ⟨lowerList s.data⟩

/-- Python substring containment `needle in hay`: needle occurs contiguously
in hay; an empty needle is always contained, matching Python. -/
def containsSub (hay needle : List Char) : Bool :=
  (List.range (hay.length + 1)).any fun i =>
    decide ((hay.drop i).take needle.length = needle)

/-- Python str.split(sep) for a one-character separator, keeping empty
fields. -/
def splitOnChar (c : Char) : List Char → List (List Char)
  | [] => [[]]
  | x :: xs =>
    let r := splitOnChar c xs
    if x = c then [] :: r
    else
      match r with
      | [] => [[x]]
      | w :: ws => (x :: w) :: ws

/-- split at every whitespace character, keeping empty fields. -/
def splitOnWs : List Char → List (List Char)
  | [] => [[]]
  | x :: xs =>
    let r := splitOnWs xs
    if x.isWhitespace then [] :: r
    else
      match r with
      | [] => [[x]]
      | w :: ws => (x :: w) :: ws

/-- Python str.split() with no argument: whitespace-delimited tokens with
empty fields dropped. -/
def splitWs (l : List Char) : List (List Char) :=
  (splitOnWs l).filter fun w => decide (w ≠ [])

/-- Python text.replace(' ', ''): remove the space character (only). -/
def stripSpaces (l : List Char) : List Char :=
  l.filter fun c => decide (c ≠ ' ')

/-- JobMatcher._is_korean: some character lies in the Hangul syllable
range U+AC00 – U+D7A3. -/
def isKorean (l : List Char) : Bool :=
  l.any fun c => decide (0xAC00 ≤ c.toNat ∧ c.toNat ≤ 0xD7A3)

/-! ### difflib.SequenceMatcher, ratio only

The matcher calls difflib.SequenceMatcher(None, text, keyword).ratio().
With no junk argument, and below the 200-character autojunk threshold
(the regime exercised here), find_longest_match returns the longest
common contiguous block, ties resolved towards the smallest start in the
first sequence and then in the second; ratio sums the recursively found
block sizes M and returns 2*M/(len(a)+len(b)). -/

/-- length of the common prefix of two character lists. -/
def commonPrefixLen : List Char → List Char → Nat
  | a :: as, b :: bs => if a = b then commonPrefixLen as bs + 1 else 0
  | _, _ => 0

/-- keep the candidate only when its block is strictly longer, so the scan
order (smallest start in a, then in b) resolves ties as difflib does. -/
def bestMatchStep (best cand : Nat × Nat × Nat) : Nat × Nat × Nat :=
  if best.2.2 < cand.2.2 then cand else best

/-- all (start in a, start in b, common-run length) candidates. -/
def matchCandidates (a b : List Char) : List (Nat × Nat × Nat) :=
  (List.range a.length).flatMap fun i =>
    (List.range b.length).map fun j => (i, j, commonPrefixLen (a.drop i) (b.drop j))

/-- SequenceMatcher.find_longest_match over the full ranges. -/
def longestMatch (a b : List Char) : Nat × Nat × Nat :=
  (matchCandidates a b).foldl bestMatchStep (0, 0, 0)

/-- total matched size over the matching blocks of get_matching_blocks,
computed by recursing left and right of the longest match; the fuel is an
upper bound on the recursion depth (each level strictly shrinks a). -/
def matchSizeAux : Nat → List Char → List Char → Nat
  | 0, _, _ => 0
  | fuel + 1, a, b =>
    let m := longestMatch a b
    if m.2.2 = 0 then 0
    else
      m.2.2 + matchSizeAux fuel (a.take m.1) (b.take m.2.1)
            + matchSizeAux fuel (a.drop (m.1 + m.2.2)) (b.drop (m.2.1 + m.2.2))

def matchSize (a b : List Char) : Nat := matchSizeAux a.length a b

/-- SequenceMatcher.ratio: 2*M / (len a + len b); difflib returns 1.0 when
both inputs are empty. -/
def ratio (a b : List Char) : ℚ :=
  if a.length + b.length = 0 then 1
  else 2 * (matchSize a b : ℚ) / ((a.length : ℚ) + (b.length : ℚ))

/-! ### JobMatcher (src/recruit/matcher.py) -/

/-- the Korean-keyword early-return block of
JobMatcher.calculate_similarity (the three returns guarded by
`if is_korean_keyword`); `none` means the block falls through to the
SequenceMatcher scoring.  Arguments are the already lowercased text and
keyword. -/
def koreanEarlyScore (tl kl : List Char) : Option ℚ :=
  let kw_words := splitWs kl
  if kw_words = [] then none
  else
    let text_no_spaces := stripSpaces tl
    let keyword_no_spaces := stripSpaces kl
    let text_words := splitWs tl
    let kwset := kw_words.dedup
    let common := kwset.filter fun w => decide (w ∈ text_words)
    if common.length = kwset.length then some 1
    else if containsSub text_no_spaces keyword_no_spaces then some (9/10)
    else
      let words_found :=
        (kw_words.filter fun w =>
          containsSub tl w || containsSub text_no_spaces (stripSpaces w)).length
      if words_found = kw_words.length then
        some (max (7/10) ((common.length : ℚ) / (kwset.length : ℚ)))
      else none

/-- the SequenceMatcher-plus-word-overlap scoring of
JobMatcher.calculate_similarity (before the Korean dampening). -/
def fallbackScore (tl kl : List Char) : ℚ :=
  let sim := ratio tl kl
  let text_words := (splitWs tl).dedup
  let keyword_words := (splitWs kl).dedup
  if keyword_words = [] then sim
  else
    max sim
      (((keyword_words.filter fun w => decide (w ∈ text_words)).length : ℚ) /
        (keyword_words.length : ℚ) * (8/10))

/-- the token count of the Korean dampening check: how many
whitespace-delimited keyword tokens occur as substrings of the text. -/
def dampWordsFound (tl kl : List Char) : Nat :=
  ((splitWs kl).filter fun w => containsSub tl w).length

/-- JobMatcher.calculate_similarity on lowercased character lists. -/
def calcSimL (tl kl : List Char) : ℚ :=
  if containsSub tl kl then 1
  else
    match (if isKorean kl then koreanEarlyScore tl kl else none) with
    | some r => r
    | none =>
      if isKorean kl = true ∧ fallbackScore tl kl < 6/10 ∧ dampWordsFound tl kl = 0
      then fallbackScore tl kl * (3/10)
      else fallbackScore tl kl

/-- JobMatcher.calculate_similarity. -/
def calculate_similarity (text keyword : String) : ℚ :=
  calcSimL (lowerList text.data) (lowerList keyword.data)

/-- a job posting record (the dict fields used by the core). -/
structure Job where
  title : String
  company : String
  link : String
  detail : String
  source : String
deriving DecidableEq

/-- the JobMatcher state: keywords and exclusions (lowercased by the
constructor) and the similarity threshold. -/
structure JobMatcher where
  keywords : List String
  exclude_keywords : List String
  threshold : ℚ

/-- JobMatcher.__init__: keywords and exclusions are lowercased once. -/
def mkJobMatcher (keywords exclude_keywords : List String) (threshold : ℚ) : JobMatcher :=
  ⟨keywords.map lowerStr, exclude_keywords.map lowerStr, threshold⟩

def emptyStr : String := ""

def spaceStr : String := " "

/-- JobMatcher.should_exclude: some (already lowercased) exclude keyword is
a substring of the lowercased text. -/
def should_exclude (m : JobMatcher) (text : String) : Bool :=
  m.exclude_keywords.any fun kw => containsSub (lowerList text.data) kw.data

/-- the per-keyword combined candidate score of JobMatcher.match:
max(title similarity × 1.5, detail similarity). -/
def combinedScore (title detail keyword : String) : ℚ :=
  max (calculate_similarity title keyword * (3/2)) (calculate_similarity detail keyword)

/-- the running-maximum update of JobMatcher.match: replace the best
(score, keyword) pair only on a strictly greater score. -/
def bestStep (f : String → ℚ) (acc : ℚ × String) (kw : String) : ℚ × String :=
  if acc.1 < f kw then (f kw, kw) else acc

/-- JobMatcher.match: (matched?, best combined score, matched keyword). -/
def matchJob (m : JobMatcher) (j : Job) : Bool × ℚ × String :=
  if should_exclude m (j.title ++ spaceStr ++ j.detail) then (false, 0, emptyStr)
  else
    let best := m.keywords.foldl (bestStep (combinedScore j.title j.detail)) (0, emptyStr)
    (decide (m.threshold ≤ best.1), best.1, best.2)

/-- a posting augmented by the matcher with similarity and matched
keyword. -/
structure MatchedJob where
  job : Job
  similarity : ℚ
  matched_keyword : String
deriving DecidableEq

/-- the kept postings of JobMatcher.filter_jobs before the sort, in input
order. -/
def matched_jobs (m : JobMatcher) (jobs : List Job) : List MatchedJob :=
  jobs.filterMap fun j =>
    let r := matchJob m j
    if r.1 then some ⟨j, r.2.1, r.2.2⟩ else none

/-- stable descending insertion: an element moves past exactly the strictly
higher scores, so equal scores keep input order — the behaviour of Python's
stable list.sort with reverse=True (stable sorts under a total preorder
agree on their output). -/
def insertDesc (x : MatchedJob) : List MatchedJob → List MatchedJob
  | [] => [x]
  | y :: ys => if y.similarity ≤ x.similarity then x :: y :: ys else y :: insertDesc x ys

def sortDesc : List MatchedJob → List MatchedJob
  | [] => []
  | x :: xs => insertDesc x (sortDesc xs)

/-- JobMatcher.filter_jobs: keep matched postings with similarity and
matched keyword attached, then sort by similarity, descending and stable. -/
def filter_jobs (m : JobMatcher) (jobs : List Job) : List MatchedJob :=
  sortDesc (matched_jobs m jobs)

/-! ### JobScheduler (src/recruit/scheduler.py) -/

def underscoreStr : String := "_"

/-- JobScheduler._get_job_id: the underscore-joined source, link and
title. -/
def get_job_id (j : Job) : String :=
  j.source ++ underscoreStr ++ j.link ++ underscoreStr ++ j.title

/-- JobScheduler._filter_new_jobs with the seen-set state made explicit:
returns the kept (new) postings and the updated seen set.  A posting is
kept exactly when its id is not yet in the set, and its id is added in the
same pass. -/
def filter_new_go (seen : List String) : List Job → List Job × List String
  | [] => ([], seen)
  | j :: rest =>
    if get_job_id j ∈ seen then filter_new_go seen rest
    else
      let r := filter_new_go (get_job_id j :: seen) rest
      (j :: r.1, r.2)

/-- the link de-duplication loop of JobScheduler.check_jobs: a posting is
kept when its link is non-empty (Python truthiness of the string) and not
seen before, in which case the link is recorded. -/
def dedup_go (seen : List String) : List Job → List Job
  | [] => []
  | j :: rest =>
    if j.link ≠ emptyStr ∧ j.link ∉ seen then j :: dedup_go (j.link :: seen) rest
    else dedup_go seen rest

def dedup_by_link (jobs : List Job) : List Job := dedup_go [] jobs

/-- digits-only decimal parse, the relevant fragment of Python int(): `none`
models the ValueError raised on malformed input. -/
def digitsToNat (s : List Char) : Option Nat :=
  if s ≠ [] ∧ s.all Char.isDigit then
    some (s.foldl (fun acc c => acc * 10 + (c.toNat - 48)) 0)
  else none

def colonChar : Char := ':'

/-- JobScheduler._parse_time: split on the colon into exactly an hour and a
minute, parse both, and build the time of day (in seconds, the granularity
of datetime.time comparisons); `none` models the ValueError that
datetime.time raises on out-of-range fields and int() on non-numeric
parts. -/
def parse_time (s : String) : Option Nat :=
  match splitOnChar colonChar s.data with
  | [h, m] =>
    match digitsToNat h, digitsToNat m with
    | some hh, some mm =>
      if hh ≤ 23 ∧ mm ≤ 59 then some (hh * 3600 + mm * 60) else none
    | _, _ => none
  | _ => none

/-- JobScheduler._is_within_time_range on times of day in seconds. -/
def is_within_time_range (current s e : Nat) : Bool :=
  if s ≤ e then decide (s ≤ current) && decide (current ≤ e)
  else decide (current ≥ s) || decide (current ≤ e)

def digitChar (d : Nat) : Char := Char.ofNat (48 + d)

/-- two-digit zero-padded rendering, as strftime uses for %H and %M. -/
def pad2 (n : Nat) : List Char :=
  if n < 10 then [digitChar 0, digitChar n]
  else [digitChar (n / 10), digitChar (n % 10)]

/-- strftime %H:%M of a time of day given in seconds. -/
def formatHM (current : Nat) : String :=
  ⟨pad2 (current / 3600) ++ colonChar :: pad2 (current % 3600 / 60)⟩

/-- the schedule shape read by JobScheduler.__init__ (an absent times list
is the empty list, absent start/end times are none). -/
structure ScheduleConfig where
  schedule_times : List String
  start_time : Option String
  end_time : Option String
  interval_minutes : Nat

/-- JobScheduler._should_check_now, with the current time of day (seconds)
passed in; `none` models the exception propagated out of _parse_time. -/
def should_check_now (cfg : ScheduleConfig) (current : Nat) : Option Bool :=
  if cfg.schedule_times ≠ [] then
    some (decide (formatHM current ∈ cfg.schedule_times))
  else
    match cfg.start_time, cfg.end_time with
    | some st, some et =>
      (parse_time st).bind fun s =>
        (parse_time et).map fun e => is_within_time_range current s e
    | _, _ => some true

/-- JobScheduler._check_jobs_with_time_validation, state-passing form: from
the last recorded check instant and the current instant (seconds on a
common clock), decide whether the check runs and produce the updated
last-check instant; `none` models a propagated _parse_time exception. -/
def check_with_time_validation (cfg : ScheduleConfig) (last : Option Nat) (now : Nat) :
    Option (Bool × Option Nat) :=
  (should_check_now cfg (now % 86400)).map fun should =>
    if !should then (false, last)
    else if cfg.start_time.isSome ∧ cfg.end_time.isSome then
      match last with
      | none => (true, some now)
      | some t =>
        if ((now : ℚ) - (t : ℚ)) / 60 < (cfg.interval_minutes : ℚ) then (false, last)
        else (true, some now)
    else (true, last)

/-! ### Spec-side definition and concrete data for the claims -/

/-- Modelled from the spec's words (as amended): walking the pool with the
already-walked prefix at hand, keep a posting exactly when its link is
non-empty and no earlier posting of the pool carries the same link. -/
def dedupSpecAux (pre : List Job) : List Job → List Job
  | [] => []
  | j :: rest =>
    if j.link ≠ emptyStr ∧ j.link ∉ pre.map Job.link
    then j :: dedupSpecAux (pre ++ [j]) rest
    else dedupSpecAux (pre ++ [j]) rest

def dedupFirstOccurrence (jobs : List Job) : List Job := dedupSpecAux [] jobs

/-- JobScheduler.__init__, schedule part: the schedule strings are stored
exactly as given; no time string is parsed or validated at construction. -/
def scheduler_init (times : List String) (start_t end_t : Option String)
    (interval : Nat) : ScheduleConfig :=
  ⟨times, start_t, end_t, interval⟩

/-! concrete inputs used by the counterexamples and witnesses -/

def pyKw : String := "python"

def jobPy : Job := ⟨r"python", r"", r"", r"", r""⟩

def mPy : JobMatcher := mkJobMatcher [pyKw] [] (3/10)

def mjPy : MatchedJob := ⟨jobPy, 3/2, pyKw⟩

def zKw : String := "z"

def jobAz : Job := ⟨r"a", r"", r"", r"a", r""⟩

def mZ : JobMatcher := mkJobMatcher [zKw] [] (3/10)

def textBackendDev : String := "백엔드 개발자"

def kwFrontend : String := "프론트엔드"

def jobLinked : Job := ⟨r"t", r"", r"u", r"d", r"s"⟩

def jobIdA : Job := ⟨r"t", r"", r"c", r"", r"a_b"⟩

def jobIdB : Job := ⟨r"t", r"", r"b_c", r"", r"a"⟩

def timeStr0900 : String := "09:00"

def timeStr1800 : String := "18:00"

def badTimeStr : String := "ab:cd"

def cfgWindow : ScheduleConfig := ⟨[], some timeStr0900, some timeStr1800, 60⟩

/-! ### Bounds for the similarity pipeline -/

theorem commonPrefixLen_le_left : ∀ a b : List Char, commonPrefixLen a b ≤ a.length := by
  intro a
  induction a with
  | nil => intro b; cases b <;> simp [commonPrefixLen]
  | cons x xs ih =>
    intro b
    cases b with
    | nil => simp [commonPrefixLen]
    | cons y ys =>
      simp only [commonPrefixLen, List.length_cons]
      split
      · exact Nat.succ_le_succ (ih ys)
      · exact Nat.zero_le _

theorem commonPrefixLen_le_right : ∀ a b : List Char, commonPrefixLen a b ≤ b.length := by
  intro a
  induction a with
  | nil => intro b; cases b <;> simp [commonPrefixLen]
  | cons x xs ih =>
    intro b
    cases b with
    | nil => simp [commonPrefixLen]
    | cons y ys =>
      simp only [commonPrefixLen, List.length_cons]
      split
      · exact Nat.succ_le_succ (ih ys)
      · exact Nat.zero_le _

theorem foldl_bestMatchStep_prop {P : Nat × Nat × Nat → Prop} :
    ∀ (l : List (Nat × Nat × Nat)) (init : Nat × Nat × Nat),
      P init → (∀ x ∈ l, P x) → P (l.foldl bestMatchStep init) := by
  intro l
  induction l with
  | nil => intro init h0 _; exact h0
  | cons x xs ih =>
    intro init h0 hl
    simp only [List.foldl_cons]
    apply ih
    · unfold bestMatchStep
      split
      · exact hl x (List.mem_cons_self x xs)
      · exact h0
    · intro y hy; exact hl y (List.mem_cons_of_mem x hy)

theorem matchCandidates_bound (a b : List Char) :
    ∀ x ∈ matchCandidates a b, x.1 + x.2.2 ≤ a.length ∧ x.2.1 + x.2.2 ≤ b.length := by
  intro x hx
  simp only [matchCandidates, List.mem_flatMap, List.mem_map, List.mem_range] at hx
  obtain ⟨i, hi, j, hj, rfl⟩ := hx
  dsimp only
  refine ⟨?_, ?_⟩
  · have h := commonPrefixLen_le_left (a.drop i) (b.drop j)
    simp only [List.length_drop] at h
    omega
  · have h := commonPrefixLen_le_right (a.drop i) (b.drop j)
    simp only [List.length_drop] at h
    omega

theorem longestMatch_bound (a b : List Char) :
    (longestMatch a b).2.2 = 0 ∨
      ((longestMatch a b).1 + (longestMatch a b).2.2 ≤ a.length ∧
        (longestMatch a b).2.1 + (longestMatch a b).2.2 ≤ b.length) := by
  unfold longestMatch
  exact foldl_bestMatchStep_prop
    (P := fun x => x.2.2 = 0 ∨ (x.1 + x.2.2 ≤ a.length ∧ x.2.1 + x.2.2 ≤ b.length))
    (matchCandidates a b) (0, 0, 0) (Or.inl rfl)
    (fun x hx => Or.inr (matchCandidates_bound a b x hx))

theorem matchSizeAux_le :
    ∀ (fuel : Nat) (a b : List Char), matchSizeAux fuel a b ≤ min a.length b.length := by
  intro fuel
  induction fuel with
  | zero => intro a b; simp [matchSizeAux]
  | succ n ih =>
    intro a b
    simp only [matchSizeAux]
    split
    · exact Nat.zero_le _
    · rename_i hk
      rcases longestMatch_bound a b with h0 | ⟨ha, hb⟩
      · exact absurd h0 hk
      · have h1 := ih (a.take (longestMatch a b).1) (b.take (longestMatch a b).2.1)
        have h2 := ih (a.drop ((longestMatch a b).1 + (longestMatch a b).2.2))
          (b.drop ((longestMatch a b).2.1 + (longestMatch a b).2.2))
        simp only [List.length_take, List.length_drop] at h1 h2
        omega

theorem matchSize_le (a b : List Char) : matchSize a b ≤ min a.length b.length :=
  matchSizeAux_le a.length a b

theorem ratio_nonneg (a b : List Char) : 0 ≤ ratio a b := by
  unfold ratio
  split
  · norm_num
  · apply div_nonneg
    · positivity
    · positivity

theorem ratio_le_one (a b : List Char) : ratio a b ≤ 1 := by
  unfold ratio
  split
  · norm_num
  · rename_i h
    have hM := matchSize_le a b
    have hpos : (0 : ℚ) < (a.length : ℚ) + (b.length : ℚ) := by
      have : 0 < a.length + b.length := Nat.pos_of_ne_zero h
      exact_mod_cast this
    rw [div_le_one hpos]
    have : 2 * matchSize a b ≤ a.length + b.length := by omega
    exact_mod_cast this

theorem natDiv_nonneg (c k : Nat) : (0 : ℚ) ≤ (c : ℚ) / (k : ℚ) := by positivity

theorem natDiv_le_one (c k : Nat) (hck : c ≤ k) : (c : ℚ) / (k : ℚ) ≤ 1 := by
  rcases Nat.eq_zero_or_pos k with hk | hk
  · subst hk
    norm_num
  · rw [div_le_one (by exact_mod_cast hk)]
    exact_mod_cast hck

theorem koreanEarlyScore_bounds (tl kl : List Char) (r : ℚ)
    (h : koreanEarlyScore tl kl = some r) : 0 ≤ r ∧ r ≤ 1 := by
  simp only [koreanEarlyScore] at h
  split_ifs at h with h1 h2 h3 h4
  · obtain rfl : (1 : ℚ) = r := Option.some_injective _ h
    norm_num
  · obtain rfl : (9/10 : ℚ) = r := Option.some_injective _ h
    norm_num
  · obtain rfl := Option.some_injective _ h
    constructor
    · exact le_trans (by norm_num) (le_max_left _ _)
    · apply max_le (by norm_num)
      exact natDiv_le_one _ _ (List.length_filter_le _ _)

theorem fallbackScore_bounds (tl kl : List Char) :
    0 ≤ fallbackScore tl kl ∧ fallbackScore tl kl ≤ 1 := by
  simp only [fallbackScore]
  split_ifs with h
  · exact ⟨ratio_nonneg _ _, ratio_le_one _ _⟩
  · constructor
    · exact le_trans (ratio_nonneg _ _) (le_max_left _ _)
    · apply max_le (ratio_le_one _ _)
      have hdiv := natDiv_le_one
        (((splitWs kl).dedup.filter fun w => decide (w ∈ (splitWs tl).dedup)).length)
        ((splitWs kl).dedup.length) (List.length_filter_le _ _)
      have hnn := natDiv_nonneg
        (((splitWs kl).dedup.filter fun w => decide (w ∈ (splitWs tl).dedup)).length)
        ((splitWs kl).dedup.length)
      nlinarith

theorem calcSimL_bounds (tl kl : List Char) : 0 ≤ calcSimL tl kl ∧ calcSimL tl kl ≤ 1 := by
  unfold calcSimL
  split
  · norm_num
  · cases hk : (if isKorean kl then koreanEarlyScore tl kl else none) with
    | some r =>
      split at hk
      · exact koreanEarlyScore_bounds tl kl r hk
      · exact absurd hk (by simp)
    | none =>
      obtain ⟨hnn, hle⟩ := fallbackScore_bounds tl kl
      split_ifs
      · exact ⟨by positivity, by nlinarith⟩
      · exact ⟨hnn, hle⟩

theorem calculate_similarity_bounds (text keyword : String) :
    0 ≤ calculate_similarity text keyword ∧ calculate_similarity text keyword ≤ 1 :=
  calcSimL_bounds _ _

theorem combinedScore_bounds (title detail keyword : String) :
    0 ≤ combinedScore title detail keyword ∧ combinedScore title detail keyword ≤ 3/2 := by
  obtain ⟨ht0, ht1⟩ := calculate_similarity_bounds title keyword
  obtain ⟨hd0, hd1⟩ := calculate_similarity_bounds detail keyword
  unfold combinedScore
  constructor
  · exact le_trans hd0 (le_max_right _ _)
  · apply max_le
    · nlinarith
    · nlinarith

/-! ### The running-maximum loop of JobMatcher.match -/

/-- the strict-update running maximum either never moves off its initial
value (every candidate is at most the initial score), or lands on a
candidate attaining the final score with all earlier candidates strictly
below it and all later ones at most it. -/
theorem bestStep_spec (f : String → ℚ) :
    ∀ (l : List String) (init : ℚ × String),
      (l.foldl (bestStep f) init = init ∧ ∀ kw ∈ l, f kw ≤ init.1) ∨
      (∃ pre kw post, l = pre ++ kw :: post ∧
        l.foldl (bestStep f) init = (f kw, kw) ∧ init.1 < f kw ∧
        (∀ k ∈ pre, f k < f kw) ∧ (∀ k ∈ post, f k ≤ f kw)) := by
  intro l
  induction l with
  | nil => intro init; exact Or.inl ⟨rfl, by simp⟩
  | cons kw rest ih =>
    intro init
    by_cases hlt : init.1 < f kw
    · have hstep : bestStep f init kw = (f kw, kw) := by simp [bestStep, hlt]
      rcases ih (f kw, kw) with ⟨he, hall⟩ | ⟨pre, kw2, post, hl, hfold, hlt2, hpre, hpost⟩
      · refine Or.inr ⟨[], kw, rest, by simp, ?_, hlt, by simp, ?_⟩
        · simpa [hstep] using he
        · simpa using hall
      · refine Or.inr ⟨kw :: pre, kw2, post, by simp [hl], ?_, lt_trans hlt hlt2, ?_, hpost⟩
        · simpa [hstep] using hfold
        · intro k hk
          rcases List.mem_cons.mp hk with rfl | hk2
          · exact hlt2
          · exact hpre k hk2
    · have hstep : bestStep f init kw = init := by simp [bestStep, hlt]
      rcases ih init with ⟨he, hall⟩ | ⟨pre, kw2, post, hl, hfold, hlt2, hpre, hpost⟩
      · refine Or.inl ⟨?_, ?_⟩
        · simpa [hstep] using he
        · intro k hk
          rcases List.mem_cons.mp hk with rfl | hk2
          · exact not_lt.mp hlt
          · exact hall k hk2
      · refine Or.inr ⟨kw :: pre, kw2, post, by simp [hl], ?_, hlt2, ?_, hpost⟩
        · simpa [hstep] using hfold
        · intro k hk
          rcases List.mem_cons.mp hk with rfl | hk2
          · exact lt_of_le_of_lt (not_lt.mp hlt) hlt2
          · exact hpre k hk2

/-- the score component of JobMatcher.match lies in [0, 3/2]. -/
theorem matchJob_score_bounds (m : JobMatcher) (j : Job) :
    0 ≤ (matchJob m j).2.1 ∧ (matchJob m j).2.1 ≤ 3/2 := by
  unfold matchJob
  split
  · norm_num
  · dsimp only
    rcases bestStep_spec (combinedScore j.title j.detail) m.keywords (0, emptyStr) with
      ⟨he, _⟩ | ⟨pre, kw, post, _, hfold, hlt, _, _⟩
    · rw [he]
      norm_num
    · rw [hfold]
      exact combinedScore_bounds j.title j.detail kw

/-! ### The stable descending sort of JobMatcher.filter_jobs -/

theorem mem_insertDesc (x z : MatchedJob) :
    ∀ l, z ∈ insertDesc x l ↔ z = x ∨ z ∈ l := by
  intro l
  induction l with
  | nil => simp [insertDesc]
  | cons y ys ih =>
    simp only [insertDesc]
    split
    · simp [List.mem_cons]
    · simp only [List.mem_cons, ih]
      tauto

theorem pairwise_insertDesc (x : MatchedJob) :
    ∀ l, List.Pairwise (fun a b => b.similarity ≤ a.similarity) l →
      List.Pairwise (fun a b => b.similarity ≤ a.similarity) (insertDesc x l) := by
  intro l
  induction l with
  | nil => intro _; simp [insertDesc]
  | cons y ys ih =>
    intro hp
    rcases List.pairwise_cons.mp hp with ⟨hy, hys⟩
    simp only [insertDesc]
    split
    · rename_i hle
      refine List.pairwise_cons.mpr ⟨?_, hp⟩
      intro z hz
      rcases List.mem_cons.mp hz with rfl | hz2
      · exact hle
      · exact le_trans (hy z hz2) hle
    · rename_i hgt
      refine List.pairwise_cons.mpr ⟨?_, ih hys⟩
      intro z hz
      rcases (mem_insertDesc x z ys).mp hz with rfl | hz2
      · exact le_of_not_le hgt
      · exact hy z hz2

theorem sortDesc_sorted :
    ∀ l, List.Pairwise (fun a b => b.similarity ≤ a.similarity) (sortDesc l) := by
  intro l
  induction l with
  | nil => simp [sortDesc]
  | cons x xs ih => exact pairwise_insertDesc x (sortDesc xs) ih

/-- inserting keeps the subsequence of any fixed score intact: the element
goes in front of every entry with a score at most its own, and everything
it skips has a strictly larger score. -/
theorem filter_insertDesc (q : ℚ) (x : MatchedJob) :
    ∀ l, (insertDesc x l).filter (fun j => decide (j.similarity = q)) =
      if x.similarity = q then x :: l.filter (fun j => decide (j.similarity = q))
      else l.filter (fun j => decide (j.similarity = q)) := by
  intro l
  induction l with
  | nil =>
    simp only [insertDesc, List.filter]
    split_ifs with hx
    · simp [hx]
    · simp [hx]
  | cons y ys ih =>
    simp only [insertDesc]
    split
    · rename_i hle
      by_cases hx : x.similarity = q
      · simp [List.filter, hx]
      · simp [List.filter, hx]
    · rename_i hgt
      have hylt : x.similarity < y.similarity := lt_of_not_le hgt
      by_cases hx : x.similarity = q
      · have hy : ¬(y.similarity = q) := by
          intro hq
          rw [hx] at hylt
          rw [hq] at hylt
          exact lt_irrefl _ hylt
        simp [List.filter, hy, ih, hx]
      · by_cases hy : y.similarity = q
        · simp [List.filter, hy, ih, hx]
        · simp [List.filter, hy, ih, hx]

theorem sortDesc_filter (q : ℚ) :
    ∀ l, (sortDesc l).filter (fun j => decide (j.similarity = q)) =
      l.filter (fun j => decide (j.similarity = q)) := by
  intro l
  induction l with
  | nil => simp [sortDesc]
  | cons x xs ih =>
    simp only [sortDesc, filter_insertDesc, ih]
    split_ifs with hx
    · simp [List.filter, hx]
    · simp [List.filter, hx]

theorem mem_sortDesc (z : MatchedJob) : ∀ l, z ∈ sortDesc l ↔ z ∈ l := by
  intro l
  induction l with
  | nil => simp [sortDesc]
  | cons x xs ih =>
    simp only [sortDesc, mem_insertDesc, ih, List.mem_cons]

/-! ### De-duplication by link -/

theorem dedup_go_eq_spec :
    ∀ (l : List Job) (seen : List String) (pre : List Job),
      (∀ s, s ∈ seen ↔ s ≠ emptyStr ∧ s ∈ pre.map Job.link) →
      dedup_go seen l = dedupSpecAux pre l := by
  intro l
  induction l with
  | nil => intro seen pre _; rfl
  | cons j rest ih =>
    intro seen pre hinv
    simp only [dedup_go, dedupSpecAux]
    have hcond : (j.link ≠ emptyStr ∧ j.link ∉ seen) ↔
        (j.link ≠ emptyStr ∧ j.link ∉ pre.map Job.link) := by
      constructor
      · rintro ⟨hne, hnm⟩
        refine ⟨hne, fun hmem => hnm ((hinv j.link).mpr ⟨hne, hmem⟩)⟩
      · rintro ⟨hne, hnm⟩
        refine ⟨hne, fun hmem => hnm ((hinv j.link).mp hmem).2⟩
    split_ifs with h1 h2 h2
    · congr 1
      apply ih
      intro s
      simp only [List.mem_cons, List.map_append, List.mem_append, List.map_cons,
        List.map_nil, List.mem_singleton, List.not_mem_nil, or_false]
      constructor
      · rintro (rfl | hs)
        · exact ⟨h1.1, Or.inr rfl⟩
        · have hs2 := (hinv s).mp hs
          exact ⟨hs2.1, Or.inl hs2.2⟩
      · rintro ⟨hne, hs | rfl⟩
        · exact Or.inr ((hinv s).mpr ⟨hne, hs⟩)
        · exact Or.inl rfl
    · exact absurd (hcond.mp h1) h2
    · exact absurd (hcond.mpr h2) h1
    · apply ih
      intro s
      simp only [List.map_append, List.mem_append, List.map_cons, List.map_nil,
        List.mem_singleton, List.not_mem_nil, or_false]
      constructor
      · intro hs
        have hs2 := (hinv s).mp hs
        exact ⟨hs2.1, Or.inl hs2.2⟩
      · rintro ⟨hne, hs | rfl⟩
        · exact (hinv s).mpr ⟨hne, hs⟩
        · -- s = j.link was not kept: either empty (contradicting hne) or already seen
          rcases not_and_or.mp h1 with hc | hc
          · exact absurd hne (not_not.mp (by simpa using hc))
          · exact not_not.mp hc

theorem dedup_go_link_ne :
    ∀ (l : List Job) (seen : List String) (j : Job),
      j ∈ dedup_go seen l → j.link ≠ emptyStr := by
  intro l
  induction l with
  | nil => intro seen j h; exact absurd h (by simp [dedup_go])
  | cons x rest ih =>
    intro seen j h
    simp only [dedup_go] at h
    split_ifs at h with h1
    · rcases List.mem_cons.mp h with rfl | h2
      · exact h1.1
      · exact ih _ j h2
    · exact ih _ j h

/-! ### The history store filter -/

theorem filter_new_seen_mono :
    ∀ (l : List Job) (seen : List String) (s : String),
      s ∈ seen → s ∈ (filter_new_go seen l).2 := by
  intro l
  induction l with
  | nil => intro seen s hs; exact hs
  | cons j rest ih =>
    intro seen s hs
    simp only [filter_new_go]
    split_ifs
    · exact ih seen s hs
    · exact ih _ s (List.mem_cons_of_mem _ hs)

theorem filter_new_kept_registered :
    ∀ (l : List Job) (seen : List String) (j : Job),
      j ∈ (filter_new_go seen l).1 → get_job_id j ∈ (filter_new_go seen l).2 := by
  intro l
  induction l with
  | nil => intro seen j h; exact absurd h (by simp [filter_new_go])
  | cons x rest ih =>
    intro seen j h
    simp only [filter_new_go] at h ⊢
    split_ifs at h ⊢ with h1
    · exact ih seen j h
    · rcases List.mem_cons.mp h with rfl | h2
      · exact filter_new_seen_mono rest _ _ (List.mem_cons_self _ _)
      · exact ih _ j h2

/-- once an id is in the seen set, no posting carrying that id is ever
returned again by the filter. -/
theorem filter_new_seen_blocks :
    ∀ (l : List Job) (seen : List String) (s : String),
      s ∈ seen → s ∉ (filter_new_go seen l).1.map get_job_id := by
  intro l
  induction l with
  | nil => intro seen s hs; simp [filter_new_go]
  | cons x rest ih =>
    intro seen s hs
    simp only [filter_new_go]
    split_ifs with h1
    · exact ih seen s hs
    · simp only [List.map_cons, List.mem_cons, not_or]
      refine ⟨?_, ih _ s (List.mem_cons_of_mem _ hs)⟩
      intro hsx
      rw [hsx] at hs
      exact h1 hs

theorem filter_new_ids_nodup :
    ∀ (l : List Job) (seen : List String),
      ((filter_new_go seen l).1.map get_job_id).Nodup := by
  intro l
  induction l with
  | nil => intro seen; simp [filter_new_go]
  | cons x rest ih =>
    intro seen
    simp only [filter_new_go]
    split_ifs with h1
    · exact ih seen
    · simp only [List.map_cons, List.nodup_cons]
      exact ⟨filter_new_seen_blocks rest _ _ (List.mem_cons_self _ _), ih _⟩

/-! ### Concrete evaluation helpers

Rational arithmetic in the kernel does not reduce (gcd is defined by
well-founded recursion), so concrete scores are computed by rewriting:
the Nat- and list-level pieces are settled by decide, the field
arithmetic by norm_num. -/

theorem ratio_eq_zero (a b : List Char) (h : matchSize a b = 0)
    (hl : a.length + b.length ≠ 0) : ratio a b = 0 := by
  unfold ratio
  rw [if_neg hl, h]
  norm_num

theorem calcSimL_exact (tl kl : List Char) (h : containsSub tl kl = true) :
    calcSimL tl kl = 1 := by
  unfold calcSimL
  rw [if_pos h]

theorem calcSimL_nonKorean (tl kl : List Char) (h1 : containsSub tl kl = false)
    (h2 : isKorean kl = false) : calcSimL tl kl = fallbackScore tl kl := by
  unfold calcSimL
  rw [if_neg (by simp [h1]), if_neg (by simp [h2])]
  simp [h2]

theorem fallbackScore_zero (tl kl : List Char) (hr : ratio tl kl = 0)
    (hc : ((splitWs kl).dedup.filter fun w => decide (w ∈ (splitWs tl).dedup)).length = 0) :
    fallbackScore tl kl = 0 := by
  simp only [fallbackScore]
  split_ifs with h
  · exact hr
  · rw [hr, hc]
    norm_num

theorem eval_calc_py_title : calculate_similarity jobPy.title pyKw = 1 := by
  unfold calculate_similarity
  exact calcSimL_exact _ _ (by decide)

theorem eval_calc_py_detail : calculate_similarity jobPy.detail pyKw = 0 := by
  unfold calculate_similarity
  rw [calcSimL_nonKorean _ _ (by decide) (by decide)]
  exact fallbackScore_zero _ _ (ratio_eq_zero _ _ (by decide) (by decide)) (by decide)

theorem eval_combined_py : combinedScore jobPy.title jobPy.detail pyKw = 3/2 := by
  unfold combinedScore
  rw [eval_calc_py_title, eval_calc_py_detail]
  norm_num

theorem eval_matchJob_py : matchJob mPy jobPy = (true, 3/2, pyKw) := by
  unfold matchJob
  rw [if_neg (by decide)]
  have hkw : mPy.keywords = [pyKw] := by decide
  rw [hkw]
  simp only [List.foldl_cons, List.foldl_nil, bestStep, eval_combined_py]
  rw [if_pos (by norm_num)]
  dsimp only
  rw [decide_eq_true (show mPy.threshold ≤ (3/2 : ℚ) by norm_num [mPy, mkJobMatcher])]

theorem eval_filter_jobs_py : filter_jobs mPy [jobPy] = [mjPy] := by
  unfold filter_jobs matched_jobs
  simp only [List.filterMap_cons, List.filterMap_nil, eval_matchJob_py]
  simp [sortDesc, insertDesc, mjPy]

theorem eval_calc_az : calculate_similarity jobAz.title zKw = 0 := by
  unfold calculate_similarity
  rw [calcSimL_nonKorean _ _ (by decide) (by decide)]
  exact fallbackScore_zero _ _ (ratio_eq_zero _ _ (by decide) (by decide)) (by decide)

theorem eval_combined_az : combinedScore jobAz.title jobAz.detail zKw = 0 := by
  unfold combinedScore
  have hd : calculate_similarity jobAz.detail zKw = 0 := by
    unfold calculate_similarity
    rw [calcSimL_nonKorean _ _ (by decide) (by decide)]
    exact fallbackScore_zero _ _ (ratio_eq_zero _ _ (by decide) (by decide)) (by decide)
  rw [eval_calc_az, hd]
  norm_num

theorem eval_matchJob_az : matchJob mZ jobAz = (false, 0, emptyStr) := by
  unfold matchJob
  rw [if_neg (by decide)]
  have hkw : mZ.keywords = [zKw] := by decide
  rw [hkw]
  simp only [List.foldl_cons, List.foldl_nil, bestStep, eval_combined_az]
  rw [if_neg (by norm_num [mZ, mkJobMatcher])]
  dsimp only
  rw [decide_eq_false (show ¬(mZ.threshold ≤ (0 : ℚ)) by norm_num [mZ, mkJobMatcher])]

theorem eval_ratio_backend :
    ratio (lowerList textBackendDev.data) (lowerList kwFrontend.data) = 1/3 := by
  unfold ratio
  rw [if_neg (by decide)]
  rw [show matchSize (lowerList textBackendDev.data) (lowerList kwFrontend.data) = 2
    from by decide]
  rw [show (lowerList textBackendDev.data).length = 7 from by decide]
  rw [show (lowerList kwFrontend.data).length = 5 from by decide]
  norm_num

theorem eval_fallback_backend :
    fallbackScore (lowerList textBackendDev.data) (lowerList kwFrontend.data) = 1/3 := by
  unfold fallbackScore
  rw [if_neg (by decide)]
  rw [eval_ratio_backend]
  rw [show ((splitWs (lowerList kwFrontend.data)).dedup.filter
      fun w => decide (w ∈ (splitWs (lowerList textBackendDev.data)).dedup)).length = 0
    from by decide]
  rw [show (splitWs (lowerList kwFrontend.data)).dedup.length = 1 from by decide]
  norm_num

/-! ### Claim theorems -/

/-- C2 (counterexample): the orchestrator's de-duplication does not keep a
posting whose link is empty — the loop guard `if link and ...` drops it, so
the pool consisting of one empty-link posting de-duplicates to the empty
list, against the claim that every empty-link posting is kept. -/
theorem c2_counterexample :
    jobAz.link = emptyStr ∧ dedup_by_link [jobAz] = [] := by
  exact ⟨rfl, by decide⟩

/-- C2 (amended): pooled postings de-duplicate by link with the first
occurrence of every non-empty link winning, and every posting whose link
is empty is dropped (never kept). -/
theorem c2_dedup_first_occurrence (jobs : List Job) :
    dedup_by_link jobs = dedupFirstOccurrence jobs ∧
    ∀ j ∈ dedup_by_link jobs, j.link ≠ emptyStr := by
  constructor
  · exact dedup_go_eq_spec jobs [] [] (by simp)
  · intro j hj
    exact dedup_go_link_ne jobs [] j hj

/-- C2 (witness): the amended statement evaluated on a one-element pool
with a non-empty link. -/
theorem c2_witness :
    dedup_by_link [jobLinked] = dedupFirstOccurrence [jobLinked] ∧
    jobLinked.link ≠ emptyStr :=
  ⟨(c2_dedup_first_occurrence [jobLinked]).1,
    (c2_dedup_first_occurrence [jobLinked]).2 jobLinked (by decide)⟩

/-- C4: a posting kept by the history filter is registered in the returned
seen set; the kept postings of one pass have pairwise distinct identities
(a posting occurring twice in a batch is kept once); and a kept posting is
never kept again by any later pass that starts from the updated seen set
or any superset of it. -/
theorem c4_filter_new_registration (seen : List String) (jobs : List Job) :
    (∀ j ∈ (filter_new_go seen jobs).1, get_job_id j ∈ (filter_new_go seen jobs).2) ∧
    ((filter_new_go seen jobs).1.map get_job_id).Nodup ∧
    (∀ (seen2 : List String) (jobs2 : List Job) (j : Job),
      j ∈ (filter_new_go seen jobs).1 →
      (∀ s, s ∈ (filter_new_go seen jobs).2 → s ∈ seen2) →
      j ∉ (filter_new_go seen2 jobs2).1) := by
  refine ⟨fun j hj => filter_new_kept_registered jobs seen j hj,
    filter_new_ids_nodup jobs seen, ?_⟩
  intro seen2 jobs2 j hj hsub hj2
  have hid := filter_new_kept_registered jobs seen j hj
  exact filter_new_seen_blocks jobs2 seen2 (get_job_id j) (hsub _ hid)
    (List.mem_map_of_mem get_job_id hj2)

/-- C4 (witness): one posting filtered from an empty store is registered,
and is rejected when the same batch is replayed over the updated store. -/
theorem c4_witness :
    get_job_id jobLinked ∈ (filter_new_go [] [jobLinked]).2 ∧
    jobLinked ∉ (filter_new_go (filter_new_go [] [jobLinked]).2 [jobLinked]).1 :=
  ⟨(c4_filter_new_registration [] [jobLinked]).1 jobLinked (by decide),
    (c4_filter_new_registration [] [jobLinked]).2.2 (filter_new_go [] [jobLinked]).2
      [jobLinked] jobLinked (by decide) (fun s hs => hs)⟩

/-- C5: filter_jobs returns the kept postings sorted by descending
similarity, and stably so — for every score, the kept postings carrying
that score appear in exactly their input order (the order of the unsorted
matched list). -/
theorem c5_filter_jobs_sorted_stable (m : JobMatcher) (jobs : List Job) :
    List.Pairwise (fun a b => b.similarity ≤ a.similarity) (filter_jobs m jobs) ∧
    ∀ q : ℚ, (filter_jobs m jobs).filter (fun j => decide (j.similarity = q)) =
      (matched_jobs m jobs).filter (fun j => decide (j.similarity = q)) :=
  ⟨sortDesc_sorted _, fun q => sortDesc_filter q _⟩

/-- C7: for an overnight window (start > end) the containment test is
exactly (now ≥ start or now ≤ end); with start 22:00 and end 06:00, 23:00
is inside, 12:00 is outside, and 06:00 is inside (inclusive boundary). -/
theorem c7_overnight_window (now s e : Nat) (h : e < s) :
    is_within_time_range now s e = (decide (now ≥ s) || decide (now ≤ e)) ∧
    is_within_time_range 82800 79200 21600 = true ∧
    is_within_time_range 43200 79200 21600 = false ∧
    is_within_time_range 21600 79200 21600 = true := by
  refine ⟨?_, by decide, by decide, by decide⟩
  unfold is_within_time_range
  rw [if_neg (by omega)]

/-- C7 (witness): the overnight containment identity at start 1 s, end 0 s,
now 5 s. -/
theorem c7_witness :
    (0 : Nat) < 1 ∧
      is_within_time_range 5 1 0 = (decide (5 ≥ 1) || decide (5 ≤ 0)) :=
  ⟨by decide, (c7_overnight_window 5 1 0 (by decide)).1⟩

/-- C9: the history identity is the underscore-joined source, link and
title, and the joining is not injective — the two postings (source a_b,
link c) and (source a, link b_c) with equal titles collide, so the history
filter keeps only the first of the two. -/
theorem c9_job_id_not_injective :
    (∀ j : Job, get_job_id j = j.source ++ underscoreStr ++ j.link ++ underscoreStr ++ j.title) ∧
    jobIdA.source ≠ jobIdB.source ∧ jobIdA.link ≠ jobIdB.link ∧
    get_job_id jobIdA = get_job_id jobIdB ∧
    (filter_new_go [] [jobIdA, jobIdB]).1 = [jobIdA] :=
  ⟨fun _ => rfl, by decide, by decide, by decide, by decide⟩

/-- C1 (counterexample): an exact title match is weighted by 1.5 before the
threshold comparison and attached unclamped, so a kept posting can carry
the score 3/2 > 1, against the claimed interval [0, 1]. -/
theorem c1_counterexample :
    mjPy ∈ filter_jobs mPy [jobPy] ∧ ¬(mjPy.similarity ≤ 1) := by
  constructor
  · rw [eval_filter_jobs_py]
    exact List.mem_singleton.mpr rfl
  · show ¬((3/2 : ℚ) ≤ 1)
    norm_num

/-- C1 (amended): every posting kept by filter_jobs carries a score in
[0, 3/2] — the per-keyword similarities stay in [0, 1] and the 1.5× title
weighting stretches the attached combined score to at most 3/2. -/
theorem c1_score_range (m : JobMatcher) (jobs : List Job) (mj : MatchedJob)
    (h : mj ∈ filter_jobs m jobs) : 0 ≤ mj.similarity ∧ mj.similarity ≤ 3/2 := by
  have h2 : mj ∈ matched_jobs m jobs := (mem_sortDesc mj _).mp h
  simp only [matched_jobs, List.mem_filterMap] at h2
  obtain ⟨j, hj, hmj⟩ := h2
  split_ifs at hmj with hm
  obtain rfl := Option.some_injective _ hmj
  exact matchJob_score_bounds m j

/-- C1 (witness): the amended range statement evaluated on the kept
python posting. -/
theorem c1_witness :
    mjPy ∈ filter_jobs mPy [jobPy] ∧ (0 ≤ mjPy.similarity ∧ mjPy.similarity ≤ 3/2) := by
  have hmem : mjPy ∈ filter_jobs mPy [jobPy] := by
    rw [eval_filter_jobs_py]
    exact List.mem_singleton.mpr rfl
  exact ⟨hmem, c1_score_range mPy [jobPy] mjPy hmem⟩

/-- C10 (counterexample): when no include keyword attains a positive
combined score the running maximum never moves, and match returns the
initial empty string as matched keyword — which is not the lowercased form
of any include keyword of the profile. -/
theorem c10_counterexample :
    (matchJob mZ jobAz).2.2 = emptyStr ∧
    (matchJob mZ jobAz).2.2 ∉ [zKw].map lowerStr := by
  rw [eval_matchJob_az]
  exact ⟨rfl, by decide⟩

/-- C10 (amended): whenever the posting is not excluded and the maximal
combined score is positive, the matched keyword is the lowercased form of
an include keyword; among the lowercased include keywords it is the
earliest one attaining the maximal combined score — every earlier keyword
scores strictly below it (the running maximum is replaced only on a
strictly greater score) and every later keyword scores at most it. -/
theorem c10_matched_keyword_earliest (keywords exclude_keywords : List String)
    (threshold : ℚ) (j : Job)
    (hex : should_exclude (mkJobMatcher keywords exclude_keywords threshold)
      (j.title ++ spaceStr ++ j.detail) = false)
    (hpos : 0 < (matchJob (mkJobMatcher keywords exclude_keywords threshold) j).2.1) :
    ∃ pre kw post,
      keywords.map lowerStr = pre ++ kw :: post ∧
      (matchJob (mkJobMatcher keywords exclude_keywords threshold) j).2.2 = kw ∧
      combinedScore j.title j.detail kw =
        (matchJob (mkJobMatcher keywords exclude_keywords threshold) j).2.1 ∧
      (∀ k ∈ pre, combinedScore j.title j.detail k < combinedScore j.title j.detail kw) ∧
      (∀ k ∈ post, combinedScore j.title j.detail k ≤ combinedScore j.title j.detail kw) := by
  unfold matchJob at hpos ⊢
  rw [if_neg (by simp [hex])] at hpos ⊢
  dsimp only at hpos ⊢
  rcases bestStep_spec (combinedScore j.title j.detail)
      (mkJobMatcher keywords exclude_keywords threshold).keywords (0, emptyStr) with
    ⟨he, _⟩ | ⟨pre, kw, post, hl, hfold, _, hpre, hpost⟩
  · rw [he] at hpos
    exact absurd hpos (lt_irrefl 0)
  · refine ⟨pre, kw, post, ?_, ?_, ?_, ?_, ?_⟩
    · exact hl
    · rw [hfold]
    · rw [hfold]
    · intro k hk
      exact hpre k hk
    · intro k hk
      exact hpost k hk

/-- C10 (witness): the amended statement evaluated on the python posting,
whose maximal combined score 3/2 is positive. -/
theorem c10_witness :
    should_exclude (mkJobMatcher [pyKw] [] (3/10))
        (jobPy.title ++ spaceStr ++ jobPy.detail) = false ∧
    (∃ pre kw post,
      [pyKw].map lowerStr = pre ++ kw :: post ∧
      (matchJob (mkJobMatcher [pyKw] [] (3/10)) jobPy).2.2 = kw ∧
      combinedScore jobPy.title jobPy.detail kw =
        (matchJob (mkJobMatcher [pyKw] [] (3/10)) jobPy).2.1 ∧
      (∀ k ∈ pre, combinedScore jobPy.title jobPy.detail k <
        combinedScore jobPy.title jobPy.detail kw) ∧
      (∀ k ∈ post, combinedScore jobPy.title jobPy.detail k ≤
        combinedScore jobPy.title jobPy.detail kw)) :=
  ⟨by decide,
    c10_matched_keyword_earliest [pyKw] [] (3/10) jobPy (by decide)
      (by rw [show matchJob (mkJobMatcher [pyKw] [] (3/10)) jobPy = (true, 3/2, pyKw)
            from eval_matchJob_py]
          norm_num)⟩

/-- C6: when a CJK keyword reaches the fallback scoring with a similarity
below 0.6 and none of its tokens occurs in the text, the returned score is
that similarity multiplied by 0.3; in particular the score of the
disjoint-topic pair (text 백엔드 개발자, keyword 프론트엔드) is 1/10 < 1/2. -/
theorem c6_cjk_dampening :
    (∀ text keyword : String,
      containsSub (lowerList text.data) (lowerList keyword.data) = false →
      isKorean (lowerList keyword.data) = true →
      koreanEarlyScore (lowerList text.data) (lowerList keyword.data) = none →
      fallbackScore (lowerList text.data) (lowerList keyword.data) < 6/10 →
      dampWordsFound (lowerList text.data) (lowerList keyword.data) = 0 →
      calculate_similarity text keyword =
        fallbackScore (lowerList text.data) (lowerList keyword.data) * (3/10)) ∧
    calculate_similarity textBackendDev kwFrontend < 1/2 := by
  have hgen : ∀ text keyword : String,
      containsSub (lowerList text.data) (lowerList keyword.data) = false →
      isKorean (lowerList keyword.data) = true →
      koreanEarlyScore (lowerList text.data) (lowerList keyword.data) = none →
      fallbackScore (lowerList text.data) (lowerList keyword.data) < 6/10 →
      dampWordsFound (lowerList text.data) (lowerList keyword.data) = 0 →
      calculate_similarity text keyword =
        fallbackScore (lowerList text.data) (lowerList keyword.data) * (3/10) := by
    intro text keyword h1 h2 h3 h4 h5
    unfold calculate_similarity calcSimL
    rw [if_neg (by simp [h1]), if_pos h2, h3]
    rw [if_pos ⟨h2, h4, h5⟩]
  refine ⟨hgen, ?_⟩
  rw [hgen textBackendDev kwFrontend (by decide) (by decide) (by decide)
    (by rw [eval_fallback_backend]; norm_num) (by decide)]
  rw [eval_fallback_backend]
  norm_num

/-- C6 (witness): the dampening identity evaluated at the concrete CJK
pair. -/
theorem c6_witness :
    calculate_similarity textBackendDev kwFrontend =
      fallbackScore (lowerList textBackendDev.data) (lowerList kwFrontend.data) * (3/10) :=
  c6_cjk_dampening.1 textBackendDev kwFrontend (by decide) (by decide) (by decide)
    (by rw [eval_fallback_backend]; norm_num) (by decide)

/-- C3 (counterexample): in window+interval mode with window 09:00–18:00
and no recorded run, the trigger at exactly 18:00:00 runs the check — the
window test is inclusive of the end bound, so the claimed half-open
interval [start, end) does not describe the decision (18:00 is not
strictly before the end). -/
theorem c3_counterexample :
    (check_with_time_validation cfgWindow none 64800).map Prod.fst = some true ∧
    parse_time timeStr1800 = some 64800 ∧
    ¬(64800 % 86400 < 64800) := by
  refine ⟨by decide, by decide, by decide⟩

/-- C3 (amended): in window+interval mode the run-now decision is true iff
the current time of day lies in the window under _is_within_time_range —
for start ≤ end the closed interval [start, end], not the half-open one —
and at least interval minutes have elapsed since the last recorded run (or
no run has been recorded yet). -/
theorem c3_window_interval (st et : String) (s e interval : Nat)
    (last : Option Nat) (now : Nat)
    (hs : parse_time st = some s) (he : parse_time et = some e) :
    ((check_with_time_validation ⟨[], some st, some et, interval⟩ last now).map Prod.fst
        = some true) ↔
      (is_within_time_range (now % 86400) s e = true ∧
        ∀ t, last = some t → ((interval : Nat) : ℚ) ≤ (((now : Nat) : ℚ) - ((t : Nat) : ℚ)) / 60) := by
  have hsc : should_check_now ⟨[], some st, some et, interval⟩ (now % 86400)
      = some (is_within_time_range (now % 86400) s e) := by
    simp [should_check_now, hs, he]
  unfold check_with_time_validation
  rw [hsc]
  cases hw : is_within_time_range (now % 86400) s e with
  | false =>
    simp
  | true =>
    cases last with
    | none => simp
    | some t =>
      by_cases hc : (((now : Nat) : ℚ) - ((t : Nat) : ℚ)) / 60 < ((interval : Nat) : ℚ)
      · constructor
        · intro hcontra
          exfalso
          simp [hc] at hcontra
        · rintro ⟨-, hall⟩
          exact absurd (hall t rfl) (not_le.mpr hc)
      · constructor
        · intro _
          refine ⟨rfl, ?_⟩
          rintro t' ht'
          obtain rfl : t = t' := Option.some_injective _ ht'
          exact not_lt.mp hc
        · intro _
          simp [hc]

/-- C3 (witness): the amended decision rule evaluated inside the window at
10:00:00 with no recorded run. -/
theorem c3_witness :
    ((check_with_time_validation cfgWindow none 36000).map Prod.fst = some true) ↔
      (is_within_time_range (36000 % 86400) 32400 64800 = true ∧
        ∀ t, (none : Option Nat) = some t →
          ((60 : Nat) : ℚ) ≤ (((36000 : Nat) : ℚ) - ((t : Nat) : ℚ)) / 60) :=
  c3_window_interval timeStr0900 timeStr1800 32400 64800 60 none 36000 (by decide) (by decide)

/-- C8 (counterexample): a malformed HH:MM window bound is not rejected at
construction — the scheduler state is built with the raw string — and the
parse error surfaces at trigger-time validation, against the claim that no
error is raised at trigger time. -/
theorem c8_counterexample :
    parse_time badTimeStr = none ∧
    check_with_time_validation (scheduler_init [] (some badTimeStr) (some timeStr1800) 60)
      none 0 = none :=
  ⟨by decide, by decide⟩

/-- C8 (amended): construction stores malformed window time strings
unvalidated; the error is raised whenever the schedule decision is
evaluated — _should_check_now fails on every time-of-day input, and hence
every trigger-time validation (including the initial one in start) fails. -/
theorem c8_parse_error_at_evaluation (st et : String) (interval : Nat)
    (last : Option Nat) (now current : Nat)
    (hbad : parse_time st = none ∨ parse_time et = none) :
    should_check_now (scheduler_init [] (some st) (some et) interval) current = none ∧
    check_with_time_validation (scheduler_init [] (some st) (some et) interval)
      last now = none := by
  have hsc : ∀ c : Nat,
      should_check_now (scheduler_init [] (some st) (some et) interval) c = none := by
    intro c
    rcases hbad with hb | hb
    · simp [should_check_now, scheduler_init, hb]
    · cases hst : parse_time st with
      | none => simp [should_check_now, scheduler_init, hst]
      | some v => simp [should_check_now, scheduler_init, hst, hb]
  exact ⟨hsc current, by simp [check_with_time_validation, hsc (now % 86400)]⟩

/-- C8 (witness): the amended statement evaluated on the malformed start
time ab:cd. -/
theorem c8_witness :
    should_check_now (scheduler_init [] (some badTimeStr) (some timeStr0900) 60) 0 = none ∧
    check_with_time_validation (scheduler_init [] (some badTimeStr) (some timeStr0900) 60)
      none 5 = none :=
  c8_parse_error_at_evaluation badTimeStr timeStr0900 60 none 5 0 (Or.inl (by decide))

end JobRadar
